import Mathlib

/-!
Verification of the news-ingestion / retrieval pipeline
(`vector_store.py`, `category_mapper.py`, `rag_chain.py`,
`enhanced_rag_chain.py`) as a shallow embedding.

Modelling conventions, used throughout:

* Python strings are Lean `String`s.  Because the kernel cannot reduce the
  built-in `String.trim` / `String.toLower` / `String` ordering, the
  corresponding Python operations (`str.strip`, `str.lower`, `<` on
  strings, substring `in`) are re-implemented below over `String.data`
  (lists of characters), faithful to Python's code-point semantics.
* Python floats are modelled as elements of an arbitrary linear ordered
  field `K` (instantiated at `ℝ` for the numerical facts and at `ℚ` for
  executable witnesses).  `np.linalg.norm` is `sqrtK (sum of squares)`
  where the square root `sqrtK : K → K` of the external numpy library is a
  parameter; at `K := ℝ` it is `Real.sqrt`, which recovers the exact
  semantics.
* External collaborators (the OpenAI embedding service, the LLM, numpy,
  `langdetect`) are oracles passed in as function arguments; a `none` /
  `Except.error` result models the Python call raising an exception.
* The FAISS `IndexIDMap(IndexFlatIP)` index is modelled as the list of
  `(id, vector)` pairs it holds; `idx.search` is exact inner-product
  top-k search (descending score, ties kept in insertion order), which is
  what `IndexFlatIP` computes.
* The metadata JSONL file is modelled as its list of lines, each line an
  `Option Meta`: `some m` for a line that parses as a JSON record `m`,
  `none` for a line `json.loads` rejects.  Serialization round-trips, so
  writing a record and re-reading it yields the same `Meta`.
-/

/-! ### Python string primitives -/

/-- `str.lower` on one character (ASCII only; the Korean text used by the
repository is unaffected by lowering, as in Python). -/
def lowerCh (c : Char) : Char :=
  if 'A' ≤ c && c ≤ 'Z' then Char.ofNat (c.toNat + 32) else c

/-- `str.lower`. -/
def lowerS (s : String) : String := ⟨s.data.map lowerCh⟩

/-- `str.strip` on the character list. -/
def trimCh (l : List Char) : List Char :=
  ((l.dropWhile Char.isWhitespace).reverse.dropWhile Char.isWhitespace).reverse

/-- `str.strip`. -/
def trimS (s : String) : String := ⟨trimCh s.data⟩

/-- Python string slicing `s[:n]`. -/
def takeS (s : String) (n : Nat) : String := ⟨s.data.take n⟩

/-- Does `seg` occur at the head of `hay`? (helper for substring search). -/
def headSeg : List Char → List Char → Bool
  | [], _ => true
  | _ :: _, [] => false
  | a :: as, b :: bs => a == b && headSeg as bs

/-- Does `seg` occur anywhere in `hay`? (helper for substring search). -/
def occurs (seg : List Char) : List Char → Bool
  | [] => seg.isEmpty
  | b :: bs => headSeg seg (b :: bs) || occurs seg bs

/-- Python's substring test `sub in hay`. -/
def containsS (hay sub : String) : Bool := occurs sub.data hay.data

/-- Lexicographic code-point order on character lists. -/
def chLt : List Char → List Char → Bool
  | [], [] => false
  | [], _ :: _ => true
  | _ :: _, [] => false
  | a :: as, b :: bs => if a < b then true else if b < a then false else chLt as bs

/-- Python's `<` on strings (lexicographic by code point). -/
def ltS (a b : String) : Bool := chLt a.data b.data

/-- `' '.join xs` (Python `str.join` with a single-space separator). -/
def joinSp : List String → String
  | [] => ""
  | [x] => x
  | x :: y :: rest => x ++ " " ++ joinSp (y :: rest)

/-! ### `category_mapper.py` -/

/-- The `CATEGORY_TO_GROUP` dict of `category_mapper.py`, as an ordered
association list (Python dicts preserve insertion order, which the partial
match loop iterates in). -/
def CATEGORY_TO_GROUP : List (String × String) :=
  [("handy", "steel_export_group"),
   ("handymax", "steel_export_group"),
   ("supramax", "steel_export_group"),
   ("bdi", "steel_export_group"),
   ("steel", "steel_export_group"),
   ("baltic", "steel_export_group"),
   ("panamax", "coal_import_group"),
   ("capesize", "coal_import_group"),
   ("coal", "coal_import_group"),
   ("iron ore", "coal_import_group"),
   ("ironore", "coal_import_group"),
   ("container", "container_group"),
   ("scfi", "container_group"),
   ("shipping schedule", "container_group"),
   ("boxship", "container_group"),
   ("teu", "container_group"),
   ("bulk", "general_group"),
   ("bulker", "general_group"),
   ("dry bulk", "general_group"),
   ("freight", "general_group"),
   ("rates", "general_group"),
   ("charter", "general_group"),
   ("tonnage", "general_group"),
   ("vessel", "general_group"),
   ("shipping", "general_group"),
   ("maritime", "general_group"),
   ("port", "general_group"),
   ("cargo", "general_group"),
   ("demand", "general_group"),
   ("supply", "general_group")]

/-- The loop body of `map_categories_to_groups` for one category string:
skip falsy strings, normalize with `lower().strip()`, try an exact dict
hit first, and otherwise take the first dict entry matching as a substring
in either direction (`category_key in key or key in category_key`),
mirroring the `break` after the first partial hit. -/
def catGroupOf (cat : String) : Option String :=
  if cat = "" then none
  else
    match CATEGORY_TO_GROUP.lookup (trimS (lowerS cat)) with
    | some g => some g
    | none =>
        (CATEGORY_TO_GROUP.find? fun p =>
          containsS (trimS (lowerS cat)) p.1 ||
          containsS p.1 (trimS (lowerS cat))).map Prod.snd

/-- Append `g` if not already present: models inserting into the Python
`set` accumulator (the claims proved below are independent of the
iteration order of a Python set, so the set is modelled as a
duplicate-free list in insertion order). -/
def addSet (acc : List String) (g : String) : List String :=
  if g ∈ acc then acc else acc ++ [g]

/-- `map_categories_to_groups` (category_mapper.py lines 46-76). -/
def map_categories_to_groups (categories : List String) : List String :=
  if categories.isEmpty then ["general_group"]
  else
    let groups := categories.foldl
      (fun acc cat =>
        match catGroupOf cat with
        | some g => addSet acc g
        | none => acc) []
    if groups.isEmpty then ["general_group"] else groups

/-- `get_all_groups` (category_mapper.py lines 88-90). -/
def get_all_groups : List String :=
  ["steel_export_group", "coal_import_group", "container_group", "general_group"]

/-! ### Data model: metadata records (`vector_store.py`) -/

/-- A JSON value sitting in a list-typed field of a metadata record.
`ok xs` is a JSON array of strings; `bad` is any non-list value, which
`isinstance(..., list)` checks reject and which `' '.join` raises on. -/
inductive PyList where
  | ok (xs : List String)
  | bad
  deriving DecidableEq

/-- A metadata record / analyzed document (the dicts flowing through
`add_documents`, the JSONL metadata log, and `search_articles`).  A
missing `title`/`summary` key behaves exactly like the empty string in
every consuming operation, so string fields default to `""`; `date` keeps
its missing-vs-present distinction because `clean_meta` and the sort key
treat those differently. -/
structure Meta where
  title : String
  summary : String
  category : PyList
  assigned_group : PyList
  events : PyList
  source_url : String
  source : String
  date : Option String
  keywords : List String
  deriving DecidableEq

/-- Is the field value one Python's `validate_document` rejects?
(`not doc.get(field) or doc[field] in ['None', 'none', '']`: a missing or
falsy value, or one of the placeholder strings). -/
def isBadField (s : String) : Bool := s = "" || s = "None" || s = "none"

/-- `validate_document` (vector_store.py lines 60-69). -/
def validate_document (doc : Meta) : Bool :=
  !isBadField doc.title && !isBadField doc.summary

/-- The four `text_parts` of `add_documents` (lines 115-120); `none` when
`' '.join` raises because `events`/`category` is not a list of strings
(that exception is caught per document and the document skipped). -/
def textParts (doc : Meta) : Option (List String) :=
  match doc.events, doc.category with
  | PyList.ok es, PyList.ok cs =>
      some [doc.title, doc.summary, joinSp es, joinSp cs]
  | _, _ => none

/-- `clean_meta` (lines 139-149): field-by-field copy with `str` coercion
(identity on strings) and `date` defaulted to today's date. -/
def cleanMeta (today : String) (doc : Meta) : Meta :=
  ⟨doc.title, doc.summary, doc.category, doc.assigned_group, doc.events,
   doc.source_url, doc.source, some (doc.date.getD today), doc.keywords⟩

/-! ### The vector store state -/

/-- The persisted pair of FAISS index and metadata log.  `metaLines` is
the JSONL file: one entry per line, `none` for an unparseable line.
`vectors` is the `IndexIDMap` content: `(external id, vector)` in
insertion order. -/
structure Store (K : Type) where
  metaLines : List (Option Meta)
  vectors : List (Nat × List K)
  deriving DecidableEq

/-- Sum of squares of a vector's entries. -/
def sumSq {K : Type} [LinearOrderedField K] (v : List K) : K :=
  (v.map fun a => a * a).sum

/-- Lines 130-133 of `add_documents` (and identically lines 261-263 of
`search_articles`): `norm = np.linalg.norm(vector); if norm > 0: vector =
vector / norm`.  `np.linalg.norm` is the square root of the sum of
squares; the square root of the external numpy library is the parameter
`sqrtK`, instantiated to `Real.sqrt` at `K := ℝ`. -/
def pyNormalize {K : Type} [LinearOrderedField K] (sqrtK : K → K) (v : List K) : List K :=
  let n := sqrtK (sumSq v)
  if 0 < n then v.map (fun a => a / n) else v

/-- The per-document body of the batch loop (lines 112-155): build the
embedding text, skip the document when the text is blank after stripping,
call the embedding gateway (`none` = the call raised; caught, skipped),
normalize the vector, and produce the cleaned metadata record. -/
def processDoc {K : Type} [LinearOrderedField K] (sqrtK : K → K)
    (embed : String → Option (List K)) (today : String) (doc : Meta) :
    Option (List K × Meta) :=
  match textParts doc with
  | none => none
  | some parts =>
    if trimS (joinSp (parts.filter fun p => p ≠ "")) = "" then none
    else
      match embed (joinSp (parts.filter fun p => p ≠ "")) with
      | none => none
      | some vector => some (pyNormalize sqrtK vector, cleanMeta today doc)

/-- One batch (lines 112-155): `base` is `id_base + i` for the batch
starting at offset `i`, `j` the in-batch position; a skipped document
advances `j` without emitting a vector or a metadata line. -/
def processBatch {K : Type} [LinearOrderedField K] (sqrtK : K → K)
    (embed : String → Option (List K)) (today : String) (base : Nat) :
    Nat → List Meta → List (Nat × List K) × List Meta
  | _, [] => ([], [])
  | j, doc :: rest =>
    match processDoc sqrtK embed today doc with
    | none => processBatch sqrtK embed today base (j + 1) rest
    | some (v, m) =>
      let vm := processBatch sqrtK embed today base (j + 1) rest
      ((base + j, v) :: vm.1, m :: vm.2)

/-- The `for i in range(0, len(valid_docs), batch_size)` loop (lines
104-177): each round takes one batch, adds its vectors with
`add_with_ids` and appends its metadata lines (guarded by
`if batch_vectors`), then moves to the next batch.  `fuel` only bounds
the recursion; with `batch_size ≥ 1` (Python raises `ValueError` on a
zero step) and `fuel ≥` the number of remaining documents the loop always
ends on the empty-list test, so the model is exact there. -/
def addBatches {K : Type} [LinearOrderedField K] (sqrtK : K → K)
    (embed : String → Option (List K)) (today : String)
    (id_base batch_size : Nat) :
    Nat → Nat → List Meta → Store K → Store K
  | 0, _, _, st => st
  | _ + 1, _, [], st => st
  | fuel + 1, istart, d :: rest, st =>
    let batch := (d :: rest).take batch_size
    let vm := processBatch sqrtK embed today (id_base + istart) 0 batch
    let st' : Store K :=
      if vm.1.isEmpty then st
      else ⟨st.metaLines ++ vm.2.map some, st.vectors ++ vm.1⟩
    addBatches sqrtK embed today id_base batch_size fuel
      (istart + batch_size) ((d :: rest).drop batch_size) st'

/-- `add_documents` (vector_store.py lines 71-185).  The index and the
metadata log are read from and written back to `st`; `save_index` is the
identity on this state (a failing save is modelled where it matters, in
`rebuild_index`). -/
def add_documents {K : Type} [LinearOrderedField K] (sqrtK : K → K)
    (embed : String → Option (List K)) (today : String)
    (docs : List Meta) (batch_size : Nat) (st : Store K) : Store K :=
  if docs.isEmpty then st
  else if (docs.filter validate_document).isEmpty then st
  else
    addBatches sqrtK embed today st.metaLines.length batch_size
      (docs.filter validate_document).length 0 (docs.filter validate_document) st

/-! ### `_apply_filters` and `search_articles` -/

/-- Digits of a date component to a number. -/
def digitsVal (l : List Char) : Nat :=
  l.foldl (fun n c => n * 10 + (c.toNat - 48)) 0

/-- Split a character list on `'-'`. -/
def splitDash : List Char → List (List Char)
  | [] => [[]]
  | c :: rest =>
    if c = '-' then [] :: splitDash rest
    else
      match splitDash rest with
      | g :: gs => (c :: g) :: gs
      | [] => [[c]]

/-- Gregorian leap year. -/
def isLeap (y : Nat) : Bool := y % 4 = 0 && (y % 100 ≠ 0 || y % 400 = 0)

/-- Length of a month. -/
def daysInMonth (y m : Nat) : Nat :=
  if m = 2 then (if isLeap y then 29 else 28)
  else if m = 4 || m = 6 || m = 9 || m = 11 then 30
  else 31

/-- `datetime.strptime(s, "%Y-%m-%d").date()`: three dash-separated digit
groups (up to four digits of year, two of month and day), with a valid
calendar month and day; `none` models the `ValueError` the call raises
otherwise. -/
def parseDate (s : String) : Option (Nat × Nat × Nat) :=
  match splitDash s.data with
  | [ys, ms, ds] =>
    if ys ≠ [] && ys.all Char.isDigit && ys.length ≤ 4 &&
       ms ≠ [] && ms.all Char.isDigit && ms.length ≤ 2 &&
       ds ≠ [] && ds.all Char.isDigit && ds.length ≤ 2 then
      let y := digitsVal ys
      let m := digitsVal ms
      let d := digitsVal ds
      if 1 ≤ m && m ≤ 12 && 1 ≤ d && d ≤ daysInMonth y m then
        some (y, m, d)
      else none
    else none
  | _ => none

/-- Chronological `≤` on dates (Python compares `date` objects). -/
def dateTripleLe : Nat × Nat × Nat → Nat × Nat × Nat → Bool
  | (y1, m1, d1), (y2, m2, d2) =>
    Nat.blt y1 y2 || (y1 == y2 && (Nat.blt m1 m2 || (m1 == m2 && Nat.ble d1 d2)))

/-- The structured filter dict passed to `search_articles`.  A missing key
and an empty list are both falsy in `filters.get(...)`, so an absent
filter is the empty list (`none` for `date_range`). -/
structure Filters where
  events : List String
  category : List String
  assigned_group : List String
  date_range : Option ((Nat × Nat × Nat) × (Nat × Nat × Nat))
  deriving DecidableEq

/-- No filtering at all (`filters = {}` / `None`). -/
def noFilters : Filters := ⟨[], [], [], none⟩

/-- `_apply_filters` (vector_store.py lines 187-231): each present filter
must pass, in order events, category, assigned_group, date_range; a
non-list document field under an active list filter rejects the document,
and an unparseable or missing document date rejects it under an active
date filter (the `except` arms return `False`). -/
def apply_filters (meta : Meta) (fl : Filters) : Bool :=
  (if fl.events.isEmpty then true
   else match meta.events with
     | PyList.ok es => es.any fun e => fl.events.contains e
     | PyList.bad => false) &&
  (if fl.category.isEmpty then true
   else match meta.category with
     | PyList.ok cs => cs.any fun c => fl.category.contains c
     | PyList.bad => false) &&
  (if fl.assigned_group.isEmpty then true
   else match meta.assigned_group with
     | PyList.ok gs => gs.any fun g => fl.assigned_group.contains g
     | PyList.bad => false) &&
  (match fl.date_range with
   | none => true
   | some se =>
     match meta.date with
     | none => false
     | some ds =>
       if ds = "" then false
       else
         match parseDate ds with
         | none => false
         | some d => dateTripleLe se.1 d && dateTripleLe d se.2)

/-- A search hit: the metadata record with `meta["score"]` and
`meta["doc_id"]` set (lines 291-292). -/
structure Hit (K : Type) where
  meta : Meta
  score : K
  doc_id : Nat
  deriving DecidableEq

/-- Inner product of two vectors (`IndexFlatIP`'s similarity). -/
def dotL {K : Type} [LinearOrderedField K] (u v : List K) : K :=
  (List.zipWith (fun a b => a * b) u v).sum

/-- Stable insertion into a list already sorted by descending score: the
earlier element goes in front of later elements with an equal score. -/
def insertScore {K : Type} [LinearOrderedField K] (x : Nat × K) :
    List (Nat × K) → List (Nat × K)
  | [] => [x]
  | y :: ys => if x.2 < y.2 then y :: insertScore x ys else x :: y :: ys

/-- Exact inner-product search order: all `(id, score)` pairs by
descending score, ties in insertion order (what `IndexFlatIP` scans). -/
def sortByScore {K : Type} [LinearOrderedField K] (l : List (Nat × K)) :
    List (Nat × K) :=
  l.foldr insertScore []

/-- The candidate loop of `search_articles` (lines 277-303): drop scores
below the threshold, drop ids beyond the metadata log (desync guard),
drop lines that fail to parse, filter, and stop once `top_k` hits are
collected (the `break` runs after each successfully parsed candidate). -/
def collectHits {K : Type} [LinearOrderedField K] (lines : List (Option Meta))
    (fl : Filters) (threshold : K) (top_k : Nat) :
    List (Nat × K) → List (Hit K) → List (Hit K)
  | [], hits => hits
  | (id, s) :: rest, hits =>
    if s < threshold then collectHits lines fl threshold top_k rest hits
    else if lines.length ≤ id then collectHits lines fl threshold top_k rest hits
    else
      match lines.getD id none with
      | none => collectHits lines fl threshold top_k rest hits
      | some m =>
        if apply_filters m fl then
          (if top_k ≤ (hits ++ [(⟨m, s, id⟩ : Hit K)]).length then
             hits ++ [(⟨m, s, id⟩ : Hit K)]
           else collectHits lines fl threshold top_k rest
             (hits ++ [(⟨m, s, id⟩ : Hit K)]))
        else
          (if top_k ≤ hits.length then hits
           else collectHits lines fl threshold top_k rest hits)

/-- `x.get("date", "")`: the primary sort key of the final ranking. -/
def dateKey {K : Type} (h : Hit K) : String := h.meta.date.getD ""

/-- Stable insertion for the final ranking
`hits.sort(key=lambda x: (x.get("date",""), x["score"]), reverse=True)`:
descending lexicographic order on the `(date, score)` pair, with the
earlier hit kept in front on full ties (Python's sort is stable). -/
def insertHit {K : Type} [LinearOrderedField K] (x : Hit K) :
    List (Hit K) → List (Hit K)
  | [] => [x]
  | y :: ys =>
    if ltS (dateKey x) (dateKey y) = true ∨
       (dateKey x = dateKey y ∧ x.score < y.score) then y :: insertHit x ys
    else x :: y :: ys

/-- The final ranking pass (line 306). -/
def sortHits {K : Type} [LinearOrderedField K] (l : List (Hit K)) : List (Hit K) :=
  l.foldr insertHit []

/-- `search_articles` (vector_store.py lines 233-313).  `embedQ` is the
result of `EMBED.embed_query(query)`: `none` when the embedding call
raises, in which case the enclosing `try` is left and the outer `except`
returns `[]`.  An absent metadata file behaves like an empty `metaLines`
list (both produce `[]`: every candidate id fails the bounds check). -/
def search_articles {K : Type} [LinearOrderedField K] (sqrtK : K → K)
    (embedQ : Option (List K)) (st : Store K) (fl : Filters)
    (top_k : Nat) (threshold : K) : List (Hit K) :=
  if st.vectors.isEmpty then []
  else
    match embedQ with
    | none => []
    | some qv =>
      (sortHits (collectHits st.metaLines fl threshold top_k
        ((sortByScore (st.vectors.map fun p =>
            (p.1, dotL (pyNormalize sqrtK qv) p.2))).take
          (min (top_k * 5) st.vectors.length)) [])).take top_k

/-! ### `rag_chain.py`: intent analysis and the answer path -/

/-- `user_meta`: the dict of the conversational caller.  `role` keeps the
missing-key case (`user_meta.get("role", "담당자")`), `groups` defaults to
`[]` (`user_meta.get("groups", [])`). -/
structure UserMeta where
  role : Option String
  groups : List String
  deriving DecidableEq

/-- The intent dict built by `analyze_query_intent` (its `scope` key is
initialized to `"general"` and never updated). -/
structure Intent where
  type : String
  urgency : String
  scope : String
  requires_recent_data : Bool
  technical_level : String
  deriving DecidableEq

def urgentKeywords : List String := ["긴급", "즉시", "urgent", "immediate", "오늘", "today"]

def recentKeywords : List String := ["최근", "현재", "지금", "요즘", "recent", "current", "latest"]

def forecastKeywords : List String := ["전망", "예측", "forecast", "outlook"]

def analysisKeywords : List String := ["분석", "영향", "analysis", "impact"]

def definitionKeywords : List String := ["무엇", "뭐야", "what is", "explain"]

def howToKeywords : List String := ["어떻게", "how to", "방법"]

/-- `analyze_query_intent` (rag_chain.py lines 58-99): substring keyword
tests over the lowercased query, and a technical level derived from the
user role. -/
def analyze_query_intent (query : String) (user_meta : UserMeta) : Intent :=
  let ql := lowerS query
  let urgency := if urgentKeywords.any (containsS ql) then "high" else "normal"
  let recent := recentKeywords.any (containsS ql)
  let ty :=
    if forecastKeywords.any (containsS ql) then "forecast"
    else if analysisKeywords.any (containsS ql) then "analysis"
    else if definitionKeywords.any (containsS ql) then "definition"
    else if howToKeywords.any (containsS ql) then "how_to"
    else "general"
  let role := user_meta.role.getD "담당자"
  let tl :=
    if role = "사장" ∨ role = "실장" then "low"
    else if role = "그룹장" then "medium"
    else "high"
  ⟨ty, urgency, "general", recent, tl⟩

/-- `"sep".join xs`. -/
def joinWith (sep : String) : List String → String
  | [] => ""
  | [x] => x
  | x :: y :: rest => x ++ sep ++ joinWith sep (y :: rest)

/-- Decimal digits (`fuel`-bounded structural recursion; `fuel = n + 1`
always suffices). -/
def natStrAux : Nat → Nat → List Char
  | 0, _ => []
  | _ + 1, n =>
    if n < 10 then [Char.ofNat (48 + n)]
    else natStrAux n (n / 10) ++ [Char.ofNat (48 + n % 10)]

/-- Python `str(n)` for a natural number. -/
def natStr (n : Nat) : String := ⟨natStrAux (n + 1) n⟩

/-- One line of `format_sources` (rag_chain.py lines 205-216). -/
def sourceLine {K : Type} (i : Nat) (r : Hit K) : String :=
  let title := r.meta.title
  let src := r.meta.source
  let url := r.meta.source_url
  let date := r.meta.date.getD ""
  if url ≠ "" then
    natStr i ++ ". **" ++ title ++ "** (" ++ src ++ ", " ++ date ++ ") → [링크](" ++ url ++ ")"
  else
    natStr i ++ ". **" ++ title ++ "** (" ++ src ++ ", " ++ date ++ ")"

/-- `format_sources` (rag_chain.py lines 199-218). -/
def format_sources {K : Type} (results : List (Hit K)) : String :=
  if results.isEmpty then ""
  else
    "\n\n**📰 참고 기사:**\n" ++
      joinWith "\n" ((results.enumFrom 1).map fun p => sourceLine p.1 p.2)

/-- Days since the civil epoch 1970-01-01 (models the ordering and
difference of Python `datetime` values for the parsed dates). -/
def daysFromCivil (y m d : Nat) : Int :=
  let yy : Int := (y : Int) - (if m ≤ 2 then 1 else 0)
  let era : Int := Int.fdiv yy 400
  let yoe : Int := yy - era * 400
  let mp : Int := ((m : Int) + 9) % 12
  let doy : Int := Int.fdiv (153 * mp + 2) 5 + (d : Int) - 1
  let doe : Int := yoe * 365 + Int.fdiv yoe 4 - Int.fdiv yoe 100 + doy
  era * 146097 + doe - 719468

/-- The recency check of `build_answer` (lines 276-285): parse every
hit's date (default `"2020-01-01"`), warn when the newest one is more
than 7 days older than `now`; any parse failure raises inside the inner
`try` and the `except: pass` drops the warning.  `nowDays` is
`datetime.now()` as a (fractional) day count. -/
def recency_warning {K : Type} [LinearOrderedField K] (nowDays : K)
    (results : List (Hit K)) : List String :=
  match results.mapM (fun r => parseDate ((r.meta.date).getD "2020-01-01")) with
  | none => []
  | some [] => []
  | some (t :: ts) =>
    let latest := ts.foldl (fun a b => if dateTripleLe a b then b else a) t
    if nowDays - ((daysFromCivil latest.1 latest.2.1 latest.2.2 : Int) : K) > 7 then
      ["⚠️ *최신 정보가 1주일 이상 오래되었습니다.*"]
    else []

/-- The fallback answer of `build_answer`'s `except` arm (lines 302-309),
ending in the error text truncated to 100 characters. -/
def fallbackMsg (e : String) : String :=
  "죄송합니다. 답변 생성 중 기술적 문제가 발생했습니다.\n\n**문제 해결 방법:**\n1. 잠시 후 다시 시도해보세요\n2. 질문을 더 구체적으로 바꿔보세요\n3. 시스템 관리자에게 문의하세요\n\n**오류 정보:** " ++ takeS e 100

/-- `build_answer` (rag_chain.py lines 220-311).  The whole body runs in
one `try`; `llm` is the outcome of the code inside it that can raise —
the GPT call plus the `.strip()` on its content — so `Except.error e`
reaches the `except` arm, which returns `fallbackMsg e`.  The context and
prompt construction (lines 243-248) only feeds the LLM call, so it is
absorbed into the `llm` oracle; every other step is pure and modelled
explicitly. -/
def build_answer {K : Type} [LinearOrderedField K] (sqrtK : K → K)
    (embedQ : String → Option (List K)) (st : Store K)
    (llm : Except String String) (nowDays : K)
    (query : String) (user_meta : UserMeta) : String :=
  let intent := analyze_query_intent query user_meta
  let search_filters : Filters := ⟨[], [], user_meta.groups, none⟩
  let top_k := if intent.requires_recent_data then 7 else 5
  let results := search_articles sqrtK (embedQ query) st search_filters top_k (1 / 10)
  match llm with
  | Except.error e => fallbackMsg e
  | Except.ok content =>
    let answer := trimS content
    let sources := format_sources results
    let warnings :=
      (if results.length = 0 then
        ["⚠️ *관련 최신 뉴스가 없어 일반적인 지식을 바탕으로 답변했습니다.*"]
       else if results.length < 3 then
        ["⚠️ *제한적인 정보를 바탕으로 작성된 답변입니다.*"]
       else []) ++
      (if intent.requires_recent_data && !results.isEmpty then
        recency_warning nowDays results
       else [])
    let withSources := if sources ≠ "" then answer ++ sources else answer
    if warnings.isEmpty then withSources
    else withSources ++ "\n\n" ++ joinWith "\n" warnings

/-- The GPT step of `EnhancedRAGChain.build_enhanced_answer`
(enhanced_rag_chain.py lines 139-153): its own `try/except` turns an LLM
failure into a fixed apology string instead of raising. -/
def enhancedLLMAnswer (llm : Except String String) : String :=
  match llm with
  | Except.ok r => trimS r
  | Except.error _ => "죄송합니다. 일시적으로 답변을 생성할 수 없습니다."

/-! ### `rebuild_index` -/

/-- The three files `rebuild_index` touches: the metadata log, its
`.backup` sibling, and the FAISS index file (`none` = the file does not
exist). -/
structure FileSys (K : Type) where
  metaFile : Option (List (Option Meta))
  backupFile : Option (List (Option Meta))
  indexFile : Option (List (Nat × List K))
  deriving DecidableEq

/-- The store `add_documents` rebuilds from the replayed metadata lines:
it starts from an empty index (the index file was deleted) and an empty
metadata log (the log was renamed to `.backup`). -/
def rebuiltStore {K : Type} [LinearOrderedField K] (sqrtK : K → K)
    (embed : String → Option (List K)) (today : String)
    (lines : List (Option Meta)) : Store K :=
  add_documents sqrtK embed today (lines.filterMap id) 50 (⟨[], []⟩ : Store K)

/-- Is `save_index` reached inside the rebuild's `add_documents` call?
(It is skipped only when no replayed document survives validation, the
early `return` of `add_documents`.) -/
def rebuildSaveCalled (lines : List (Option Meta)) : Bool :=
  !((lines.filterMap id).filter validate_document).isEmpty

/-- The metadata file after the rebuild's `add_documents` call: absent if
nothing was appended (the file is only created by a write). -/
def rebuiltMetaFile {K : Type} [LinearOrderedField K] (sqrtK : K → K)
    (embed : String → Option (List K)) (today : String)
    (lines : List (Option Meta)) : Option (List (Option Meta)) :=
  if (rebuiltStore sqrtK embed today lines : Store K).metaLines.isEmpty then none
  else some (rebuiltStore sqrtK embed today lines : Store K).metaLines

/-- The index file after a successful `save_index`. -/
def rebuiltIndexFile {K : Type} [LinearOrderedField K] (sqrtK : K → K)
    (embed : String → Option (List K)) (today : String)
    (lines : List (Option Meta)) : Option (List (Nat × List K)) :=
  if rebuildSaveCalled lines then
    some (rebuiltStore sqrtK embed today lines : Store K).vectors
  else none

/-- `rebuild_index` (vector_store.py lines 344-386).  Fault injection for
the two file operations that can raise after the metadata log was moved
aside: `saveFails` is `save_index` raising at the end of
`add_documents` (reached only when some document survives validation),
and `unlinkFails` is `backup_path.unlink()` raising; either lands in the
`except` arm, which returns `False` and leaves the files as they were at
the moment of the exception. -/
def rebuild_index {K : Type} [LinearOrderedField K] (sqrtK : K → K)
    (embed : String → Option (List K)) (today : String)
    (saveFails unlinkFails : Bool) (fs : FileSys K) : Bool × FileSys K :=
  match fs.metaFile with
  | none => (false, fs)
  | some lines =>
    if (lines.filterMap id).isEmpty then (false, ⟨some lines, fs.backupFile, none⟩)
    else if saveFails && rebuildSaveCalled lines then
      (false, ⟨rebuiltMetaFile sqrtK embed today lines, some lines, none⟩)
    else if unlinkFails then
      (false, ⟨rebuiltMetaFile sqrtK embed today lines, some lines,
        rebuiltIndexFile sqrtK embed today lines⟩)
    else
      (true, ⟨rebuiltMetaFile sqrtK embed today lines, none,
        rebuiltIndexFile sqrtK embed today lines⟩)

/-! ## Lemmas: category mapper -/

theorem lookup_mem {α β : Type} [BEq α] [LawfulBEq α] {a : α} {b : β} :
    ∀ {l : List (α × β)}, List.lookup a l = some b → (a, b) ∈ l := by
  intro l
  induction l with
  | nil => intro h; simp [List.lookup] at h
  | cons p rest ih =>
    intro h
    rw [List.lookup] at h
    cases hk : a == p.1 with
    | true =>
      rw [hk] at h
      simp only [] at h
      cases h
      have : a = p.1 := eq_of_beq hk
      rw [this]
      exact List.mem_cons_self _ _
    | false =>
      rw [hk] at h
      simp only [] at h
      exact List.mem_cons_of_mem _ (ih h)

theorem catGroupOf_mem {cat g : String} (h : catGroupOf cat = some g) :
    g ∈ get_all_groups := by
  have hv : ∀ p ∈ CATEGORY_TO_GROUP, p.2 ∈ get_all_groups := by decide
  rw [catGroupOf] at h
  by_cases hc : cat = ""
  · rw [if_pos hc] at h; cases h
  · rw [if_neg hc] at h
    cases hl : List.lookup (trimS (lowerS cat)) CATEGORY_TO_GROUP with
    | some g' =>
      rw [hl] at h
      cases h
      exact hv _ (lookup_mem hl)
    | none =>
      rw [hl] at h
      cases hf : CATEGORY_TO_GROUP.find? fun p =>
          containsS (trimS (lowerS cat)) p.1 || containsS p.1 (trimS (lowerS cat)) with
      | some p =>
        rw [hf] at h
        cases h
        exact hv _ (List.mem_of_find?_eq_some hf)
      | none => rw [hf] at h; cases h

theorem mem_addSet {acc : List String} {g x : String} :
    x ∈ addSet acc g ↔ x ∈ acc ∨ x = g := by
  rw [addSet]
  by_cases hg : g ∈ acc
  · rw [if_pos hg]
    constructor
    · exact fun h => Or.inl h
    · rintro (h | h)
      · exact h
      · subst h; exact hg
  · rw [if_neg hg]; simp

theorem nodup_addSet {acc : List String} {g : String} (h : acc.Nodup) :
    (addSet acc g).Nodup := by
  rw [addSet]
  by_cases hg : g ∈ acc
  · rwa [if_pos hg]
  · rw [if_neg hg]
    simpa [List.nodup_append] using ⟨h, hg⟩

theorem groupsFold_inv (cats : List String) :
    ∀ acc : List String, acc.Nodup → (∀ g ∈ acc, g ∈ get_all_groups) →
      (cats.foldl (fun acc cat =>
        match catGroupOf cat with
        | some g => addSet acc g
        | none => acc) acc).Nodup ∧
      ∀ g ∈ cats.foldl (fun acc cat =>
        match catGroupOf cat with
        | some g => addSet acc g
        | none => acc) acc, g ∈ get_all_groups := by
  induction cats with
  | nil => intro acc h1 h2; exact ⟨h1, h2⟩
  | cons c rest ih =>
    intro acc h1 h2
    simp only [List.foldl_cons]
    cases hc : catGroupOf c with
    | none => exact ih acc h1 h2
    | some g =>
      refine ih (addSet acc g) (nodup_addSet h1) ?_
      intro x hx
      rcases mem_addSet.1 hx with h | h
      · exact h2 x h
      · subst h; exact catGroupOf_mem hc

/-- C10: for every input list of category strings the group mapper
returns a non-empty, duplicate-free list all of whose elements are among
the four groups `steel_export_group`, `coal_import_group`,
`container_group`, `general_group`. -/
theorem map_categories_codomain (cats : List String) :
    map_categories_to_groups cats ≠ [] ∧
    (map_categories_to_groups cats).Nodup ∧
    ∀ g ∈ map_categories_to_groups cats, g ∈ get_all_groups := by
  rw [map_categories_to_groups]
  by_cases hc : cats.isEmpty
  · rw [if_pos hc]
    refine ⟨by simp, by simp, ?_⟩
    intro g hg
    simp at hg
    subst hg
    decide
  · rw [if_neg hc]
    have h := groupsFold_inv cats [] (by simp) (by simp)
    by_cases hg : (cats.foldl (fun acc cat =>
        match catGroupOf cat with
        | some g => addSet acc g
        | none => acc) []).isEmpty
    · rw [if_pos hg]
      refine ⟨by simp, by simp, ?_⟩
      intro g hgm
      simp at hgm
      subst hgm
      decide
    · rw [if_neg hg]
      refine ⟨?_, h.1, h.2⟩
      intro hnil
      rw [hnil] at hg
      simp at hg

/-- C4: the four concrete group-mapping evaluations of the spec, plus
exact-match priority: whenever the normalized category key is an exact
key of `CATEGORY_TO_GROUP`, the per-category result is that key's group
and the substring loop is never consulted. -/
theorem map_categories_concrete_and_priority :
    (map_categories_to_groups ["supramax"] = ["steel_export_group"] ∧
     map_categories_to_groups ["panamax", "coal"] = ["coal_import_group"] ∧
     map_categories_to_groups [] = ["general_group"] ∧
     map_categories_to_groups ["unknown_term_xyz"] = ["general_group"]) ∧
    ∀ cat g, cat ≠ "" →
      CATEGORY_TO_GROUP.lookup (trimS (lowerS cat)) = some g →
      catGroupOf cat = some g := by
  constructor
  · exact ⟨by decide, by decide, by decide, by decide⟩
  · intro cat g hc hl
    rw [catGroupOf, if_neg hc, hl]

/-- Witness for the exact-match-priority part of the C4 theorem at the
concrete category `"coal"`. -/
theorem map_categories_priority_witness :
    ("coal" ≠ "" ∧
     CATEGORY_TO_GROUP.lookup (trimS (lowerS "coal")) = some "coal_import_group") ∧
    catGroupOf "coal" = some "coal_import_group" :=
  ⟨⟨by decide, by decide⟩,
   map_categories_concrete_and_priority.2 "coal" "coal_import_group"
     (by decide) (by decide)⟩

/-! ## Lemmas: `add_documents` -/

theorem addBatches_nil {K : Type} [LinearOrderedField K] (sqrtK : K → K)
    (embed : String → Option (List K)) (today : String)
    (id_base batch_size : Nat) :
    ∀ fuel istart (st : Store K),
      addBatches sqrtK embed today id_base batch_size fuel istart [] st = st := by
  intro fuel istart st
  cases fuel <;> rfl

theorem processBatch_counts {K : Type} [LinearOrderedField K] (sqrtK : K → K)
    (embed : String → Option (List K)) (today : String) (base : Nat) :
    ∀ j l,
      (processBatch sqrtK embed today base j l).1.length
        = l.countP (fun d => (processDoc sqrtK embed today d).isSome) ∧
      (processBatch sqrtK embed today base j l).2.length
        = l.countP (fun d => (processDoc sqrtK embed today d).isSome) := by
  intro j l
  induction l generalizing j with
  | nil => simp [processBatch]
  | cons d rest ih =>
    rw [processBatch]
    cases hpd : processDoc sqrtK embed today d with
    | none =>
      have h := ih (j + 1)
      simp [List.countP_cons, hpd, h.1, h.2]
    | some vm =>
      have h := ih (j + 1)
      simp [List.countP_cons, hpd, h.1, h.2]

theorem processBatch_noskip {K : Type} [LinearOrderedField K] (sqrtK : K → K)
    (embed : String → Option (List K)) (today : String) (base : Nat) :
    ∀ j l, (∀ d ∈ l, (processDoc sqrtK embed today d).isSome = true) →
      (processBatch sqrtK embed today base j l).1.map Prod.fst
        = List.range' (base + j) l.length := by
  intro j l
  induction l generalizing j with
  | nil => simp [processBatch]
  | cons d rest ih =>
    intro h
    have hd := h d (List.mem_cons_self _ _)
    cases hpd : processDoc sqrtK embed today d with
    | none => rw [hpd] at hd; simp at hd
    | some vm =>
      rw [processBatch, hpd]
      have ihr := ih (j + 1) (fun x hx => h x (List.mem_cons_of_mem _ hx))
      simp only [List.map_cons, ihr, List.length_cons, List.range']
      have h1 : base + (j + 1) = base + j + 1 := by omega
      rw [h1]

theorem addBatches_counts {K : Type} [LinearOrderedField K] (sqrtK : K → K)
    (embed : String → Option (List K)) (today : String)
    (id_base batch_size : Nat) (hbs : 1 ≤ batch_size) :
    ∀ fuel istart rest (st : Store K), rest.length ≤ fuel →
      (addBatches sqrtK embed today id_base batch_size fuel istart rest st).metaLines.length
        = st.metaLines.length
          + rest.countP (fun d => (processDoc sqrtK embed today d).isSome) ∧
      (addBatches sqrtK embed today id_base batch_size fuel istart rest st).vectors.length
        = st.vectors.length
          + rest.countP (fun d => (processDoc sqrtK embed today d).isSome) := by
  intro fuel
  induction fuel with
  | zero =>
    intro istart rest st hlen
    have : rest = [] := List.eq_nil_of_length_eq_zero (by omega)
    subst this
    simp [addBatches]
  | succ fuel ih =>
    intro istart rest st hlen
    cases rest with
    | nil => simp [addBatches]
    | cons d r =>
      rw [addBatches]
      have hpc := processBatch_counts sqrtK embed today (id_base + istart) 0
        ((d :: r).take batch_size)
      have hdlen : ((d :: r).drop batch_size).length ≤ fuel := by
        rw [List.length_drop]
        simp only [List.length_cons] at hlen ⊢
        omega
      have hsplit :
          (d :: r).countP (fun x => (processDoc sqrtK embed today x).isSome)
            = ((d :: r).take batch_size).countP
                (fun x => (processDoc sqrtK embed today x).isSome)
              + ((d :: r).drop batch_size).countP
                (fun x => (processDoc sqrtK embed today x).isSome) := by
        conv_lhs => rw [← List.take_append_drop batch_size (d :: r)]
        rw [List.countP_append]
      by_cases he :
          (processBatch sqrtK embed today (id_base + istart) 0
            ((d :: r).take batch_size)).1.isEmpty
      · rw [if_pos he]
        have h0 : (processBatch sqrtK embed today (id_base + istart) 0
            ((d :: r).take batch_size)).1.length = 0 := by
          rw [List.isEmpty_iff] at he
          rw [he]; rfl
        have hc0 : ((d :: r).take batch_size).countP
            (fun x => (processDoc sqrtK embed today x).isSome) = 0 := by
          rw [← hpc.1]; exact h0
        have hr := ih (istart + batch_size) ((d :: r).drop batch_size) st hdlen
        rw [hsplit, hc0]
        constructor
        · rw [hr.1]; omega
        · rw [hr.2]; omega
      · rw [if_neg he]
        have hr := ih (istart + batch_size) ((d :: r).drop batch_size)
          (⟨st.metaLines
              ++ (processBatch sqrtK embed today (id_base + istart) 0
                    ((d :: r).take batch_size)).2.map some,
            st.vectors
              ++ (processBatch sqrtK embed today (id_base + istart) 0
                    ((d :: r).take batch_size)).1⟩ : Store K) hdlen
        rw [hsplit]
        constructor
        · rw [hr.1]
          simp only [List.length_append, List.length_map]
          rw [hpc.2]
          omega
        · rw [hr.2]
          simp only [List.length_append]
          rw [hpc.1]
          omega

theorem range_append_range' (m : Nat) :
    ∀ n, List.range n ++ List.range' n m = List.range (n + m) := by
  induction m with
  | zero => intro n; simp
  | succ m ih =>
    intro n
    have h1 : List.range' n (m + 1) = n :: List.range' (n + 1) m := by
      simp [List.range']
    rw [h1]
    have h2 : List.range n ++ n :: List.range' (n + 1) m
        = (List.range n ++ [n]) ++ List.range' (n + 1) m := by
      simp
    rw [h2, ← List.range_succ, ih (n + 1)]
    congr 1
    omega

theorem addBatches_align {K : Type} [LinearOrderedField K] (sqrtK : K → K)
    (embed : String → Option (List K)) (today : String)
    (id_base batch_size : Nat) (hbs : 1 ≤ batch_size) :
    ∀ fuel istart rest (st : Store K), rest.length ≤ fuel →
      (∀ d ∈ rest, (processDoc sqrtK embed today d).isSome = true) →
      st.vectors.map Prod.fst = List.range st.metaLines.length →
      st.metaLines.length = id_base + istart →
      (addBatches sqrtK embed today id_base batch_size
          fuel istart rest st).vectors.map Prod.fst
        = List.range (addBatches sqrtK embed today id_base batch_size
            fuel istart rest st).metaLines.length := by
  intro fuel
  induction fuel with
  | zero =>
    intro istart rest st hlen _ halign _
    have : rest = [] := List.eq_nil_of_length_eq_zero (by omega)
    subst this
    simpa [addBatches] using halign
  | succ fuel ih =>
    intro istart rest st hlen hskip halign hbase
    cases rest with
    | nil => simpa [addBatches] using halign
    | cons d r =>
      rw [addBatches]
      have hskipb : ∀ x ∈ (d :: r).take batch_size,
          (processDoc sqrtK embed today x).isSome = true :=
        fun x hx => hskip x (List.take_subset _ _ hx)
      have hids := processBatch_noskip sqrtK embed today (id_base + istart) 0
        ((d :: r).take batch_size) hskipb
      have hcnt := processBatch_counts sqrtK embed today (id_base + istart) 0
        ((d :: r).take batch_size)
      have hlen1 : 1 ≤ ((d :: r).take batch_size).length := by
        rw [List.length_take]
        simp only [List.length_cons]
        omega
      have hvlen : (processBatch sqrtK embed today (id_base + istart) 0
          ((d :: r).take batch_size)).1.length
            = ((d :: r).take batch_size).length := by
        have := congrArg List.length hids
        rwa [List.length_map, List.length_range'] at this
      have hne : ¬ (processBatch sqrtK embed today (id_base + istart) 0
          ((d :: r).take batch_size)).1.isEmpty := by
        rw [List.isEmpty_iff]
        intro hnil
        rw [hnil] at hvlen
        simp at hvlen
        omega
      rw [if_neg hne]
      have halign' :
          (st.vectors ++ (processBatch sqrtK embed today (id_base + istart) 0
              ((d :: r).take batch_size)).1).map Prod.fst
            = List.range (st.metaLines
                ++ (processBatch sqrtK embed today (id_base + istart) 0
                      ((d :: r).take batch_size)).2.map some).length := by
        rw [List.map_append, halign, hids, hbase]
        simp only [List.length_append, List.length_map]
        rw [hcnt.2, ← hcnt.1, hvlen, hbase]
        have := range_append_range' ((d :: r).take batch_size).length (id_base + istart)
        simpa using this
      by_cases hd : (d :: r).length ≤ batch_size
      · have hdrop : (d :: r).drop batch_size = [] :=
          List.drop_eq_nil_of_le hd
        rw [hdrop, addBatches_nil]
        exact halign'
      · have hdlen : ((d :: r).drop batch_size).length ≤ fuel := by
          rw [List.length_drop]
          simp only [List.length_cons] at hlen hd ⊢
          omega
        have htlen : ((d :: r).take batch_size).length = batch_size := by
          rw [List.length_take]
          simp only [List.length_cons] at hd ⊢
          omega
        refine ih (istart + batch_size) ((d :: r).drop batch_size) _ hdlen
          (fun x hx => hskip x (List.drop_subset _ _ hx)) halign' ?_
        simp only [List.length_append, List.length_map]
        rw [hcnt.2, ← hcnt.1, hvlen, hbase, htlen]
        omega

/-! ## Concrete fixtures for witnesses and counterexamples -/

/-- An embedding oracle that always succeeds. -/
def embOne : String → Option (List ℚ) := fun _ => some [1]

/-- A document used by the end-to-end fixtures. -/
def wDoc : Meta :=
  ⟨"Supramax rates surge", "Rates rose due to demand.", PyList.ok ["supramax"],
   PyList.ok ["steel_export_group"], PyList.ok [], "", "", some "2025-08-01", []⟩

/-- A document whose title and summary are single spaces: it passes
`validate_document` (a space is truthy and not a placeholder) but its
embedding text is blank after `strip()`, so `add_documents` skips it. -/
def blankDoc : Meta :=
  ⟨" ", " ", PyList.ok [], PyList.ok [], PyList.ok [], "", "", none, []⟩

/-- A document whose summary is the placeholder `"n/a"`. -/
def naDoc : Meta :=
  ⟨"Steel markets update", "n/a", PyList.ok [], PyList.ok [], PyList.ok [],
   "", "", some "2025-08-01", []⟩

/-- Tiny document constructor for batch fixtures. -/
def mkDoc (t s : String) : Meta :=
  ⟨t, s, PyList.ok [], PyList.ok [], PyList.ok [], "", "", some "2025-08-01", []⟩

/-- Ten documents, exactly one of which (the sixth) has an empty title. -/
def tenDocs : List Meta :=
  [mkDoc "d1" "s1", mkDoc "d2" "s2", mkDoc "d3" "s3", mkDoc "d4" "s4",
   mkDoc "d5" "s5", mkDoc "" "s6", mkDoc "d7" "s7", mkDoc "d8" "s8",
   mkDoc "d9" "s9", mkDoc "d10" "s10"]

/-! ## C1: ID alignment -/

/-- C1 counterexample: the claim asserts that the Nth vector's ID equals
the line position of its metadata record *even when some documents inside
a batch are skipped*.  Ingesting `[blankDoc, wDoc]` into an empty store
skips `blankDoc` (valid, but blank embedding text): one metadata line is
written (line 0, for `wDoc`) while the single vector — the 0th vector —
carries ID `0 + i + j = 1`, so the 0th vector's ID is 1, not its metadata
line position 0, and the ID↔line correspondence is broken. -/
theorem add_documents_skip_desync :
    validate_document blankDoc = true ∧
    (processDoc (fun x => x) embOne "2025-08-15" blankDoc).isSome = false ∧
    (add_documents (fun x => x) embOne "2025-08-15" [blankDoc, wDoc] 50
      (⟨[], []⟩ : Store ℚ)).metaLines.length = 1 ∧
    (add_documents (fun x => x) embOne "2025-08-15" [blankDoc, wDoc] 50
      (⟨[], []⟩ : Store ℚ)).vectors.map Prod.fst = [1] := by
  refine ⟨by decide, by decide, by decide, by decide⟩

/-- C1 (amended): after `add_documents`, (a) the metadata line count
equals the vector count whenever they were equal before the call — even
when documents are skipped, since a vector and its metadata line are
appended together; and (b) when no document surviving validation is
skipped (non-blank embedding text, list-valued `events`/`category`, and a
successful embedding call), IDs are assigned as
`existing metadata count + position`, so the id sequence of the index
equals `0, 1, …, metadata line count - 1`: the Nth vector's ID is exactly
the line position of its metadata record.  Skips instead leave permanent
gaps (see the counterexample). -/
theorem add_documents_id_alignment {K : Type} [LinearOrderedField K]
    (sqrtK : K → K) (embed : String → Option (List K)) (today : String)
    (docs : List Meta) (batch_size : Nat) (st : Store K)
    (hbs : 1 ≤ batch_size) :
    (st.metaLines.length = st.vectors.length →
      (add_documents sqrtK embed today docs batch_size st).metaLines.length
        = (add_documents sqrtK embed today docs batch_size st).vectors.length) ∧
    (st.vectors.map Prod.fst = List.range st.metaLines.length →
     (∀ d ∈ docs.filter validate_document,
        (processDoc sqrtK embed today d).isSome = true) →
      (add_documents sqrtK embed today docs batch_size st).vectors.map Prod.fst
        = List.range
            (add_documents sqrtK embed today docs batch_size st).metaLines.length) := by
  constructor
  · intro heq
    rw [add_documents]
    by_cases h1 : docs.isEmpty
    · rw [if_pos h1]; exact heq
    · rw [if_neg h1]
      by_cases h2 : (docs.filter validate_document).isEmpty
      · rw [if_pos h2]; exact heq
      · rw [if_neg h2]
        have h := addBatches_counts sqrtK embed today st.metaLines.length
          batch_size hbs (docs.filter validate_document).length 0
          (docs.filter validate_document) st (le_refl _)
        rw [h.1, h.2, heq]
  · intro halign hskip
    rw [add_documents]
    by_cases h1 : docs.isEmpty
    · rw [if_pos h1]; exact halign
    · rw [if_neg h1]
      by_cases h2 : (docs.filter validate_document).isEmpty
      · rw [if_pos h2]; exact halign
      · rw [if_neg h2]
        exact addBatches_align sqrtK embed today st.metaLines.length batch_size
          hbs (docs.filter validate_document).length 0
          (docs.filter validate_document) st (le_refl _) hskip halign
          (by omega)

/-- Witness for the C1 theorem: a concrete no-skip ingestion into the
empty store, all hypotheses discharged by evaluation. -/
theorem add_documents_id_alignment_witness :
    (add_documents (fun x => x) embOne "2025-08-15" [wDoc] 50
        (⟨[], []⟩ : Store ℚ)).vectors.map Prod.fst
      = List.range
          (add_documents (fun x => x) embOne "2025-08-15" [wDoc] 50
            (⟨[], []⟩ : Store ℚ)).metaLines.length :=
  (add_documents_id_alignment (fun x => x) embOne "2025-08-15" [wDoc] 50
      ⟨[], []⟩ (by decide)).2 (by decide) (by decide)

/-! ## C7: ingestion fault isolation -/

/-- C7 counterexample: the claim says a document whose summary is a
placeholder *such as "n/a"* is dropped, but `validate_document` only
rejects `''`, `'None'` and `'none'`: `naDoc` (summary `"n/a"`) passes
validation and is stored. -/
theorem validate_document_keeps_na :
    validate_document naDoc = true ∧
    (add_documents (fun x => x) embOne "2025-08-15" [naDoc] 50
      (⟨[], []⟩ : Store ℚ)).metaLines.length = 1 := by
  refine ⟨by decide, by decide⟩

/-- C7 (amended): `add_documents` drops exactly the documents whose
`title` or `summary` is `""`, `"None"` or `"none"` (the placeholder
`"n/a"` is accepted), and stores every document that survives validation
provided it embeds successfully; in particular a batch of 10 documents
with exactly one empty title stores exactly 9.  Ingestion never aborts:
invalid documents are filtered out and per-document failures are skipped,
never propagated. -/
theorem add_documents_fault_isolation {K : Type} [LinearOrderedField K]
    (sqrtK : K → K) (embed : String → Option (List K)) (today : String)
    (docs : List Meta) (batch_size : Nat) (st : Store K)
    (hbs : 1 ≤ batch_size) :
    (∀ d : Meta, validate_document d = false ↔
        (d.title = "" ∨ d.title = "None" ∨ d.title = "none" ∨
         d.summary = "" ∨ d.summary = "None" ∨ d.summary = "none")) ∧
    ((∀ d ∈ docs.filter validate_document,
        (processDoc sqrtK embed today d).isSome = true) →
      (add_documents sqrtK embed today docs batch_size st).metaLines.length
        = st.metaLines.length + (docs.filter validate_document).length) := by
  constructor
  · intro d
    simp [validate_document, isBadField]
    tauto
  · intro hskip
    rw [add_documents]
    by_cases h1 : docs.isEmpty
    · rw [if_pos h1]
      have : docs = [] := List.isEmpty_iff.1 h1
      subst this
      simp
    · rw [if_neg h1]
      by_cases h2 : (docs.filter validate_document).isEmpty
      · rw [if_pos h2]
        rw [List.isEmpty_iff.1 h2]
        simp
      · rw [if_neg h2]
        have h := addBatches_counts sqrtK embed today st.metaLines.length
          batch_size hbs (docs.filter validate_document).length 0
          (docs.filter validate_document) st (le_refl _)
        rw [h.1]
        congr 1
        rw [List.countP_eq_length]
        exact hskip

/-- Witness for the C7 theorem: the ten-document batch with one empty
title stores exactly nine documents. -/
theorem add_documents_fault_isolation_witness :
    (add_documents (fun x => x) embOne "2025-08-15" tenDocs 50
        (⟨[], []⟩ : Store ℚ)).metaLines.length
      = (⟨[], []⟩ : Store ℚ).metaLines.length
        + (tenDocs.filter validate_document).length ∧
    (tenDocs.filter validate_document).length = 9 :=
  ⟨(add_documents_fault_isolation (fun x => x) embOne "2025-08-15" tenDocs 50
      ⟨[], []⟩ (by decide)).2 (by decide), by decide⟩

/-! ## Lemmas: the lexicographic string order used by the final ranking -/

theorem chLt_irrefl : ∀ a, chLt a a = false := by
  intro a
  induction a with
  | nil => rfl
  | cons c cs ih =>
    rw [chLt, if_neg (lt_irrefl c), if_neg (lt_irrefl c)]
    exact ih

theorem chLt_asymm : ∀ a b, chLt a b = true → chLt b a = false := by
  intro a
  induction a with
  | nil =>
    intro b h
    cases b with
    | nil => simp [chLt] at h
    | cons d ds => rfl
  | cons c cs ih =>
    intro b h
    cases b with
    | nil => simp [chLt] at h
    | cons d ds =>
      rw [chLt] at h ⊢
      by_cases h1 : c < d
      · rw [if_neg (lt_asymm h1), if_pos h1]
      · rw [if_neg h1] at h
        by_cases h2 : d < c
        · rw [if_pos h2] at h
          simp at h
        · rw [if_neg h2] at h
          rw [if_neg h2, if_neg h1]
          exact ih ds h

theorem chLt_connex : ∀ a b, chLt a b = false → chLt b a = false → a = b := by
  intro a
  induction a with
  | nil =>
    intro b hab _
    cases b with
    | nil => rfl
    | cons d ds => simp [chLt] at hab
  | cons c cs ih =>
    intro b hab hba
    cases b with
    | nil => simp [chLt] at hba
    | cons d ds =>
      rw [chLt] at hab hba
      by_cases h1 : c < d
      · rw [if_pos h1] at hab
        simp at hab
      · by_cases h2 : d < c
        · rw [if_pos h2] at hba
          simp at hba
        · have hcd : c = d := by
            rcases lt_trichotomy c d with h | h | h
            · exact absurd h h1
            · exact h
            · exact absurd h h2
          subst hcd
          rw [if_neg h1, if_neg h1] at hab hba
          rw [ih ds hab hba]

theorem chLt_trans : ∀ a b c, chLt a b = true → chLt b c = true → chLt a c = true := by
  intro a
  induction a with
  | nil =>
    intro b c hab hbc
    cases c with
    | nil =>
      cases b with
      | nil => simp [chLt] at hab
      | cons y ys => simp [chLt] at hbc
    | cons z zs => rfl
  | cons x xs ih =>
    intro b c hab hbc
    cases b with
    | nil => simp [chLt] at hab
    | cons y ys =>
      cases c with
      | nil => simp [chLt] at hbc
      | cons z zs =>
        rw [chLt] at hab hbc ⊢
        by_cases h1 : x < y
        · by_cases h2 : y < z
          · rw [if_pos (lt_trans h1 h2)]
          · rw [if_neg h2] at hbc
            by_cases h3 : z < y
            · rw [if_pos h3] at hbc
              simp at hbc
            · have hyz : y = z := by
                rcases lt_trichotomy y z with h | h | h
                · exact absurd h h2
                · exact h
                · exact absurd h h3
              subst hyz
              rw [if_pos h1]
        · rw [if_neg h1] at hab
          by_cases h1' : y < x
          · rw [if_pos h1'] at hab
            simp at hab
          · rw [if_neg h1'] at hab
            have hxy : x = y := by
              rcases lt_trichotomy x y with h | h | h
              · exact absurd h h1
              · exact h
              · exact absurd h h1'
            subst hxy
            by_cases h2 : x < z
            · rw [if_pos h2]
            · rw [if_neg h2] at hbc ⊢
              by_cases h3 : z < x
              · rw [if_pos h3] at hbc
                simp at hbc
              · rw [if_neg h3] at hbc ⊢
                exact ih ys zs hab hbc

/-- The descending ranking relation claimed for the final ordering:
`a` may appear before `b` iff `b`'s date is strictly older, or the dates
coincide and `b`'s score is no larger. -/
def hitBefore {K : Type} [LinearOrderedField K] (a b : Hit K) : Prop :=
  ltS (dateKey b) (dateKey a) = true ∨
  (dateKey b = dateKey a ∧ b.score ≤ a.score)

theorem hitBefore_total {K : Type} [LinearOrderedField K] (a b : Hit K) :
    hitBefore a b ∨ hitBefore b a := by
  unfold hitBefore ltS
  cases hab : chLt (dateKey b).data (dateKey a).data
  · cases hba : chLt (dateKey a).data (dateKey b).data
    · have hd : (dateKey a).data = (dateKey b).data := chLt_connex _ _ hba hab
      have hdk : dateKey a = dateKey b := String.ext hd
      rcases le_total b.score a.score with h | h
      · exact Or.inl (Or.inr ⟨hdk.symm, h⟩)
      · exact Or.inr (Or.inr ⟨hdk, h⟩)
    · exact Or.inr (Or.inl rfl)
  · exact Or.inl (Or.inl rfl)

theorem hitBefore_trans {K : Type} [LinearOrderedField K] {a b c : Hit K}
    (h1 : hitBefore a b) (h2 : hitBefore b c) : hitBefore a c := by
  unfold hitBefore ltS at h1 h2 ⊢
  rcases h1 with h1 | ⟨h1e, h1s⟩
  · rcases h2 with h2 | ⟨h2e, h2s⟩
    · exact Or.inl (chLt_trans _ _ _ h2 h1)
    · rw [h2e]
      exact Or.inl h1
  · rcases h2 with h2 | ⟨h2e, h2s⟩
    · rw [← h1e]
      exact Or.inl h2
    · exact Or.inr ⟨h2e.trans h1e, h2s.trans h1s⟩

/-! ## Lemmas: the final ranking pass -/

theorem mem_insertHit {K : Type} [LinearOrderedField K] (x : Hit K) :
    ∀ l a, a ∈ insertHit x l ↔ a = x ∨ a ∈ l := by
  intro l
  induction l with
  | nil => intro a; simp [insertHit]
  | cons y ys ih =>
    intro a
    rw [insertHit]
    by_cases hc : ltS (dateKey x) (dateKey y) = true ∨
        (dateKey x = dateKey y ∧ x.score < y.score)
    · rw [if_pos hc]
      simp only [List.mem_cons, ih]
      tauto
    · rw [if_neg hc]
      simp only [List.mem_cons]

theorem pairwise_insertHit {K : Type} [LinearOrderedField K] (x : Hit K) :
    ∀ l, l.Pairwise hitBefore → (insertHit x l).Pairwise hitBefore := by
  intro l
  induction l with
  | nil => intro _; simp [insertHit, List.Pairwise]
  | cons y ys ih =>
    intro h
    rw [List.pairwise_cons] at h
    rw [insertHit]
    by_cases hc : ltS (dateKey x) (dateKey y) = true ∨
        (dateKey x = dateKey y ∧ x.score < y.score)
    · rw [if_pos hc]
      rw [List.pairwise_cons]
      constructor
      · intro a ha
        rcases (mem_insertHit x ys a).1 ha with rfl | ha
        · rcases hc with hc | ⟨hce, hcs⟩
          · exact Or.inl hc
          · exact Or.inr ⟨hce, le_of_lt hcs⟩
        · exact h.1 a ha
      · exact ih h.2
    · rw [if_neg hc]
      push_neg at hc
      have hxy : hitBefore x y := by
        unfold hitBefore
        cases hba : chLt (dateKey y).data (dateKey x).data
        · have hab : chLt (dateKey x).data (dateKey y).data = false := by
            cases hab : chLt (dateKey x).data (dateKey y).data
            · rfl
            · exact absurd hab hc.1
          have hd : (dateKey x).data = (dateKey y).data := chLt_connex _ _ hab hba
          have hdk : dateKey x = dateKey y := String.ext hd
          exact Or.inr ⟨hdk.symm, hc.2 hdk⟩
        · exact Or.inl hba
      rw [List.pairwise_cons]
      constructor
      · intro a ha
        rcases List.mem_cons.1 ha with rfl | ha
        · exact hxy
        · exact hitBefore_trans hxy (h.1 a ha)
      · rw [List.pairwise_cons]
        exact h

theorem pairwise_sortHits {K : Type} [LinearOrderedField K] (l : List (Hit K)) :
    (sortHits l).Pairwise hitBefore := by
  induction l with
  | nil => exact List.Pairwise.nil
  | cons x xs ih => exact pairwise_insertHit x _ ih

theorem mem_sortHits {K : Type} [LinearOrderedField K] {a : Hit K} :
    ∀ {l : List (Hit K)}, a ∈ sortHits l ↔ a ∈ l := by
  intro l
  induction l with
  | nil => simp [sortHits]
  | cons x xs ih =>
    show a ∈ insertHit x (sortHits xs) ↔ _
    rw [mem_insertHit x (sortHits xs) a, ih]
    simp [List.mem_cons]

theorem collectHits_sound {K : Type} [LinearOrderedField K]
    (lines : List (Option Meta)) (fl : Filters) (threshold : K) (top_k : Nat) :
    ∀ cands acc,
      (∀ x ∈ acc, apply_filters x.meta fl = true) →
      ∀ h ∈ collectHits lines fl threshold top_k cands acc,
        apply_filters h.meta fl = true := by
  intro cands
  induction cands with
  | nil =>
    intro acc hacc h hh
    exact hacc h hh
  | cons p rest ih =>
    obtain ⟨id, s⟩ := p
    intro acc hacc h hh
    rw [collectHits] at hh
    by_cases h1 : s < threshold
    · rw [if_pos h1] at hh
      exact ih acc hacc h hh
    · rw [if_neg h1] at hh
      by_cases h2 : lines.length ≤ id
      · rw [if_pos h2] at hh
        exact ih acc hacc h hh
      · rw [if_neg h2] at hh
        cases hm : lines.getD id none with
        | none =>
          simp only [hm] at hh
          exact ih acc hacc h hh
        | some m =>
          simp only [hm] at hh
          by_cases h3 : apply_filters m fl = true
          · rw [if_pos h3] at hh
            have hacc' : ∀ x ∈ acc ++ [(⟨m, s, id⟩ : Hit K)],
                apply_filters x.meta fl = true := by
              intro x hx
              rcases List.mem_append.1 hx with hx | hx
              · exact hacc x hx
              · rw [List.mem_singleton] at hx
                subst hx
                exact h3
            by_cases h4 : top_k ≤ (acc ++ [(⟨m, s, id⟩ : Hit K)]).length
            · rw [if_pos h4] at hh
              exact hacc' h hh
            · rw [if_neg h4] at hh
              exact ih _ hacc' h hh
          · rw [if_neg h3] at hh
            by_cases h4 : top_k ≤ acc.length
            · rw [if_pos h4] at hh
              exact hacc h hh
            · rw [if_neg h4] at hh
              exact ih acc hacc h hh

/-! ## Fixtures for the retrieval theorems -/

/-- A dated steel article. -/
def dDoc (t dt : String) : Meta :=
  ⟨t, "steel summary", PyList.ok ["steel"], PyList.ok [], PyList.ok [],
   "", "", some dt, []⟩

/-- Two-article store: ids 0 (older, higher-scoring vector) and 1
(newer, lower-scoring vector). -/
def stRank : Store ℚ :=
  ⟨[some (dDoc "jan" "2024-01-01"), some (dDoc "feb" "2024-02-01")],
   [(0, [9]), (1, [5])]⟩

/-- One-article store. -/
def stOne : Store ℚ := ⟨[some wDoc], [(0, [1])]⟩

/-- A category filter on `"steel"`. -/
def catFilter : Filters := ⟨[], ["steel"], [], none⟩

/-- The newer hit of `stRank` as returned by the concrete search below. -/
def hitFeb : Hit ℚ := ⟨dDoc "feb" "2024-02-01", 5, 1⟩

/-! ## C2: final ranking -/

/-- C2: for every search, the returned list is pairwise ordered by
date-first descending ranking — a hit is allowed before another exactly
when the later one has a strictly older date, or an equal date and a
score that is no larger — and at most `top_k` hits are returned.  In
particular, on a concrete store the hit dated 2024-02-01 with score 5
ranks before the hit dated 2024-01-01 with score 9. -/
theorem search_articles_ranking {K : Type} [LinearOrderedField K]
    (sqrtK : K → K) (embedQ : Option (List K)) (st : Store K) (fl : Filters)
    (top_k : Nat) (threshold : K) :
    ((search_articles sqrtK embedQ st fl top_k threshold).Pairwise hitBefore ∧
     (search_articles sqrtK embedQ st fl top_k threshold).length ≤ top_k) ∧
    (search_articles (fun _ => (0 : ℚ)) (some [1]) stRank noFilters 5
        (1 / 10)).map (fun h => (dateKey h, h.score))
      = [("2024-02-01", (5 : ℚ)), ("2024-01-01", (9 : ℚ))] := by
  constructor
  · rw [search_articles.eq_def]
    by_cases h1 : st.vectors.isEmpty
    · rw [if_pos h1]
      exact ⟨List.Pairwise.nil, by simp⟩
    · rw [if_neg h1]
      cases embedQ with
      | none => exact ⟨List.Pairwise.nil, by simp⟩
      | some qv =>
        constructor
        · exact List.Pairwise.sublist (List.take_sublist _ _) (pairwise_sortHits _)
        · rw [List.length_take]
          exact min_le_left _ _
  · norm_num [search_articles, stRank, pyNormalize, sumSq, dotL, sortByScore,
      insertScore, collectHits, apply_filters, noFilters, sortHits, insertHit,
      dateKey, ltS, chLt, dDoc]
    decide

/-! ## C3: category filter -/

/-- C3: whenever the `category` filter list is non-empty, every hit
returned by `search_articles` has a list-valued `category` field that
shares at least one element with the filter's category list; documents
with a non-list category or with categories disjoint from the filter are
never returned. -/
theorem search_articles_category_filter {K : Type} [LinearOrderedField K]
    (sqrtK : K → K) (embedQ : Option (List K)) (st : Store K) (fl : Filters)
    (top_k : Nat) (threshold : K) (hcat : fl.category ≠ []) :
    ∀ h ∈ search_articles sqrtK embedQ st fl top_k threshold,
      ∃ cs, h.meta.category = PyList.ok cs ∧ ∃ c ∈ cs, c ∈ fl.category := by
  intro h hh
  rw [search_articles.eq_def] at hh
  by_cases h1 : st.vectors.isEmpty
  · rw [if_pos h1] at hh
    simp at hh
  · rw [if_neg h1] at hh
    cases embedQ with
    | none => simp at hh
    | some qv =>
      have hh2 := List.take_subset _ _ hh
      have hh3 := mem_sortHits.1 hh2
      have happ := collectHits_sound st.metaLines fl threshold top_k _ []
        (by intro x hx; exact absurd hx (List.not_mem_nil x)) h hh3
      simp only [apply_filters, Bool.and_eq_true] at happ
      have hB := happ.1.1.2
      have hcE : ¬(fl.category.isEmpty = true) := by
        intro hE
        exact hcat (List.isEmpty_iff.1 hE)
      rw [if_neg hcE] at hB
      cases hmc : h.meta.category with
      | bad =>
        rw [hmc] at hB
        simp at hB
      | ok cs =>
        rw [hmc] at hB
        simp only [List.any_eq_true] at hB
        obtain ⟨c, hc1, hc2⟩ := hB
        exact ⟨cs, rfl, c, hc1, by simpa using hc2⟩

/-- Witness for the C3 theorem: on a concrete store with a `"steel"`
category filter, the returned newer hit satisfies the intersection
property, with the filter's non-emptiness discharged by evaluation. -/
theorem search_articles_category_filter_witness :
    catFilter.category ≠ [] ∧
    (∃ cs, hitFeb.meta.category = PyList.ok cs ∧
      ∃ c ∈ cs, c ∈ catFilter.category) :=
  ⟨by decide,
   search_articles_category_filter (fun _ => (0 : ℚ)) (some [1]) stRank
     catFilter 5 (1 / 10) (by decide) hitFeb (by
       norm_num [search_articles, stRank, pyNormalize, sumSq, dotL, sortByScore,
         insertScore, collectHits, apply_filters, catFilter, sortHits, insertHit,
         dateKey, ltS, chLt, dDoc, hitFeb]
       decide)⟩

/-! ## C6: embedding failure during retrieval -/

/-- C6 counterexample: the claim says an embedding-service failure is
propagated to the caller as an observable retrieval failure; in fact
`search_articles` catches every exception and returns `[]`.  On a
non-empty one-document store, an embedding failure (`none`) produces
`[]` — the very same value an empty index produces — so the caller
cannot observe any error. -/
theorem search_articles_absorbs_embed_failure :
    search_articles (fun x => x) (none : Option (List ℚ)) stOne noFilters 5
        (1 / 10) = [] ∧
    search_articles (fun x => x) (some [1]) (⟨[], []⟩ : Store ℚ) noFilters 5
        (1 / 10) = [] := by
  constructor <;> decide

/-- C6 (amended): an embedding-service failure during retrieval is
absorbed by `search_articles` — the outer `except` logs and returns the
empty list, indistinguishable from the no-results case — and an empty
index likewise yields the empty list without error. -/
theorem search_articles_failure_semantics {K : Type} [LinearOrderedField K]
    (sqrtK : K → K) (embedQ : Option (List K)) (st : Store K) (fl : Filters)
    (top_k : Nat) (threshold : K) :
    search_articles sqrtK none st fl top_k threshold = [] ∧
    (st.vectors = [] → search_articles sqrtK embedQ st fl top_k threshold = []) := by
  constructor
  · rw [search_articles.eq_def]
    by_cases h1 : st.vectors.isEmpty
    · rw [if_pos h1]
    · rw [if_neg h1]
  · intro h
    rw [search_articles.eq_def, if_pos (by simp [h] : st.vectors.isEmpty = true)]

/-- Witness for the C6 amended theorem: the empty-index branch at a
concrete query. -/
theorem search_articles_failure_semantics_witness :
    search_articles (fun x => x) (some [1]) (⟨[], []⟩ : Store ℚ) noFilters 7
      (1 / 10) = [] :=
  (search_articles_failure_semantics (fun x => x) (some [1]) ⟨[], []⟩ noFilters
    7 (1 / 10)).2 rfl

theorem processDoc_spec {K : Type} [LinearOrderedField K] {sqrtK : K → K}
    {embed : String → Option (List K)} {today : String} {d : Meta}
    {v : List K} {m : Meta}
    (h : processDoc sqrtK embed today d = some (v, m)) :
    ∃ raw, v = pyNormalize sqrtK raw := by
  rw [processDoc] at h
  split at h
  · exact Option.noConfusion h
  · split at h
    · exact Option.noConfusion h
    · split at h
      · exact Option.noConfusion h
      · injection h with h1
        exact ⟨_, (congrArg Prod.fst h1).symm⟩

theorem processBatch_mem {K : Type} [LinearOrderedField K] (sqrtK : K → K)
    (embed : String → Option (List K)) (today : String) (base : Nat) :
    ∀ j l p, p ∈ (processBatch sqrtK embed today base j l).1 →
      ∃ raw, p.2 = pyNormalize sqrtK raw := by
  intro j l
  induction l generalizing j with
  | nil => intro p hp; simp [processBatch] at hp
  | cons d rest ih =>
    intro p hp
    rw [processBatch] at hp
    cases hpd : processDoc sqrtK embed today d with
    | none =>
      rw [hpd] at hp
      exact ih (j + 1) p hp
    | some vm =>
      rw [hpd] at hp
      obtain ⟨v, m⟩ := vm
      simp only [List.mem_cons] at hp
      rcases hp with rfl | hp
      · obtain ⟨raw, hraw⟩ := processDoc_spec hpd
        exact ⟨raw, hraw⟩
      · exact ih (j + 1) p hp

theorem addBatches_mem {K : Type} [LinearOrderedField K] (sqrtK : K → K)
    (embed : String → Option (List K)) (today : String)
    (id_base batch_size : Nat) :
    ∀ fuel istart rest (st : Store K) p,
      p ∈ (addBatches sqrtK embed today id_base batch_size
            fuel istart rest st).vectors →
      p ∈ st.vectors ∨ ∃ raw, p.2 = pyNormalize sqrtK raw := by
  intro fuel
  induction fuel with
  | zero => intro istart rest st p hp; exact Or.inl hp
  | succ fuel ih =>
    intro istart rest st p hp
    cases rest with
    | nil => exact Or.inl hp
    | cons d r =>
      rw [addBatches] at hp
      by_cases he : (processBatch sqrtK embed today (id_base + istart) 0
          ((d :: r).take batch_size)).1.isEmpty
      · rw [if_pos he] at hp
        exact ih _ _ _ p hp
      · rw [if_neg he] at hp
        rcases ih _ _ _ p hp with hst | hnew
        · rcases List.mem_append.1 hst with hst | hb
          · exact Or.inl hst
          · exact Or.inr (processBatch_mem sqrtK embed today _ _ _ p hb)
        · exact Or.inr hnew

/-! ## Lemmas: normalization (C5) -/

theorem sumSq_nonneg {K : Type} [LinearOrderedField K] (v : List K) :
    0 ≤ sumSq v := by
  induction v with
  | nil => simp [sumSq]
  | cons a rest ih =>
    simp only [sumSq, List.map_cons, List.sum_cons] at ih ⊢
    have := mul_self_nonneg a
    linarith

theorem sumSq_map_div {K : Type} [LinearOrderedField K] (v : List K) (n : K) :
    sumSq (v.map fun a => a / n) = sumSq v / (n * n) := by
  induction v with
  | nil => simp [sumSq]
  | cons a rest ih =>
    simp only [sumSq, List.map_cons, List.sum_cons] at ih ⊢
    rw [ih, div_mul_div_comm, add_div]

theorem sumSq_zipWith_add {K : Type} [LinearOrderedField K] :
    ∀ (u w : List K), u.length = w.length →
      sumSq (List.zipWith (fun a b => a + b) u w)
        = sumSq u + 2 * dotL u w + sumSq w := by
  intro u
  induction u with
  | nil =>
    intro w hw
    simp only [List.length_nil] at hw
    have : w = [] := List.eq_nil_of_length_eq_zero hw.symm
    subst this
    simp [sumSq, dotL]
  | cons a u' ih =>
    intro w hw
    cases w with
    | nil => simp at hw
    | cons b w' =>
      simp only [List.length_cons] at hw
      have := ih w' (by omega)
      simp only [sumSq, dotL, List.zipWith_cons_cons, List.map_cons,
        List.sum_cons] at this ⊢
      rw [this]
      ring

theorem dotL_map_neg {K : Type} [LinearOrderedField K] :
    ∀ (u w : List K), dotL u (w.map fun b => -b) = -dotL u w := by
  intro u
  induction u with
  | nil => intro w; simp [dotL]
  | cons a u' ih =>
    intro w
    cases w with
    | nil => simp [dotL]
    | cons b w' =>
      simp only [dotL, List.map_cons, List.zipWith_cons_cons, List.sum_cons]
        at ih ⊢
      rw [ih w']
      ring

theorem sumSq_map_neg {K : Type} [LinearOrderedField K] :
    ∀ (w : List K), sumSq (w.map fun b => -b) = sumSq w := by
  intro w
  induction w with
  | nil => rfl
  | cons b w' ih =>
    simp only [sumSq, List.map_cons, List.sum_cons] at ih ⊢
    rw [ih]
    ring_nf

/-- C5: (a) the normalization applied by `add_documents` (lines 130-133)
and by `search_articles` to the query vector (lines 261-263) — both are
`pyNormalize Real.sqrt` — produces a vector of L2 norm exactly 1 for
every input of nonzero norm; (b) the inner-product score of two
pre-normalized vectors of equal dimension lies in `[-1, 1]`; (c) every
vector `add_documents` stores is `pyNormalize Real.sqrt raw` for some raw
embedding output, hence has unit norm whenever the raw vector's norm is
nonzero. -/
theorem normalization_invariant :
    (∀ v : List ℝ, Real.sqrt (sumSq v) ≠ 0 →
       Real.sqrt (sumSq (pyNormalize Real.sqrt v)) = 1) ∧
    (∀ u w : List ℝ, u.length = w.length →
       Real.sqrt (sumSq u) = 1 → Real.sqrt (sumSq w) = 1 →
       -1 ≤ dotL u w ∧ dotL u w ≤ 1) ∧
    (∀ (embed : String → Option (List ℝ)) (today : String) (docs : List Meta)
        (batch_size : Nat) (st : Store ℝ) (p : Nat × List ℝ),
       p ∈ (add_documents Real.sqrt embed today docs batch_size st).vectors →
       p ∈ st.vectors ∨
       ∃ raw, p.2 = pyNormalize Real.sqrt raw ∧
         (Real.sqrt (sumSq raw) ≠ 0 → Real.sqrt (sumSq p.2) = 1)) := by
  have key : ∀ v : List ℝ, Real.sqrt (sumSq v) ≠ 0 →
      Real.sqrt (sumSq (pyNormalize Real.sqrt v)) = 1 := by
    intro v h
    have hnn : 0 ≤ Real.sqrt (sumSq v) := Real.sqrt_nonneg _
    have hpos : 0 < Real.sqrt (sumSq v) := lt_of_le_of_ne hnn (Ne.symm h)
    have hs : 0 ≤ sumSq v := sumSq_nonneg v
    have hs0 : sumSq v ≠ 0 := by
      intro h0
      rw [h0, Real.sqrt_zero] at h
      exact h rfl
    rw [pyNormalize]
    rw [if_pos hpos, sumSq_map_div, Real.mul_self_sqrt hs, div_self hs0,
      Real.sqrt_one]
  have cos : ∀ u w : List ℝ, u.length = w.length →
      Real.sqrt (sumSq u) = 1 → Real.sqrt (sumSq w) = 1 →
      -1 ≤ dotL u w ∧ dotL u w ≤ 1 := by
    intro u w hlen hu hw
    have hsu : sumSq u = 1 := by
      have := Real.sqrt_eq_one.1 hu
      exact this
    have hsw : sumSq w = 1 := Real.sqrt_eq_one.1 hw
    have hplus := sumSq_zipWith_add u w hlen
    have hminus := sumSq_zipWith_add u (w.map fun b => -b)
      (by rw [List.length_map]; exact hlen)
    rw [dotL_map_neg, sumSq_map_neg] at hminus
    have h1 : 0 ≤ sumSq (List.zipWith (fun a b => a + b) u w) := sumSq_nonneg _
    have h2 : 0 ≤ sumSq (List.zipWith (fun a b => a + b) u
      (w.map fun b => -b)) := sumSq_nonneg _
    rw [hplus, hsu, hsw] at h1
    rw [hminus, hsu, hsw] at h2
    constructor <;> linarith
  refine ⟨key, cos, ?_⟩
  intro embed today docs batch_size st p hp
  have hmem : p ∈ st.vectors ∨
      ∃ raw, p.2 = pyNormalize Real.sqrt raw := by
    rw [add_documents] at hp
    by_cases h1 : docs.isEmpty
    · rw [if_pos h1] at hp
      exact Or.inl hp
    · rw [if_neg h1] at hp
      by_cases h2 : (docs.filter validate_document).isEmpty
      · rw [if_pos h2] at hp
        exact Or.inl hp
      · rw [if_neg h2] at hp
        exact addBatches_mem Real.sqrt embed today _ _ _ _ _ _ p hp
  rcases hmem with hmem | ⟨raw, hraw⟩
  · exact Or.inl hmem
  · refine Or.inr ⟨raw, hraw, ?_⟩
    intro hne
    rw [hraw]
    exact key raw hne

/-- Witness for the C5 theorem: the vector `[3, 4]` has norm 5 ≠ 0 and
normalizes to a unit vector. -/
theorem normalization_invariant_witness :
    Real.sqrt (sumSq [(3 : ℝ), 4]) ≠ 0 ∧
    Real.sqrt (sumSq (pyNormalize Real.sqrt [(3 : ℝ), 4])) = 1 := by
  have h25 : sumSq [(3 : ℝ), 4] = 25 := by
    norm_num [sumSq]
  have h : Real.sqrt (sumSq [(3 : ℝ), 4]) ≠ 0 := by
    rw [h25, show (25 : ℝ) = 5 ^ 2 by norm_num,
      Real.sqrt_sq (by norm_num : (0 : ℝ) ≤ 5)]
    norm_num
  exact ⟨h, normalization_invariant.1 [(3 : ℝ), 4] h⟩

/-! ## C9: rebuild recoverability -/

/-- C9: (a) whenever `rebuild_index` returns `False`, the original
metadata lines are still on disk — in the metadata file itself when the
failure happened before the backup rename, or in the `.backup` file
otherwise; the backup is only removed on the success path; (b) embedding
failures during the replay are not fatal: with the save and the backup
unlink succeeding, `rebuild_index` returns `True` for every embedding
oracle (documents that fail to re-embed are skipped inside
`add_documents`). -/
theorem rebuild_index_recoverable {K : Type} [LinearOrderedField K]
    (sqrtK : K → K) (embed : String → Option (List K)) (today : String)
    (saveFails unlinkFails : Bool) (fs : FileSys K)
    (lines : List (Option Meta)) (hmeta : fs.metaFile = some lines) :
    ((rebuild_index sqrtK embed today saveFails unlinkFails fs).1 = false →
      (rebuild_index sqrtK embed today saveFails unlinkFails fs).2.metaFile
          = some lines ∨
      (rebuild_index sqrtK embed today saveFails unlinkFails fs).2.backupFile
          = some lines) ∧
    (lines.filterMap id ≠ [] → saveFails = false → unlinkFails = false →
      (rebuild_index sqrtK embed today saveFails unlinkFails fs).1 = true) := by
  rw [rebuild_index]
  simp only [hmeta]
  by_cases h1 : (lines.filterMap id).isEmpty
  · rw [if_pos h1]
    constructor
    · intro _
      exact Or.inl rfl
    · intro hne _ _
      exact absurd (List.isEmpty_iff.1 h1) hne
  · rw [if_neg h1]
    by_cases h2 : (saveFails && rebuildSaveCalled lines) = true
    · rw [if_pos h2]
      constructor
      · intro _
        exact Or.inr rfl
      · intro _ hsf _
        rw [hsf] at h2
        simp at h2
    · rw [if_neg h2]
      by_cases h3 : unlinkFails = true
      · rw [if_pos h3]
        constructor
        · intro _
          exact Or.inr rfl
        · intro _ _ huf
          rw [huf] at h3
          simp at h3
      · rw [if_neg h3]
        constructor
        · intro hfalse
          simp at hfalse
        · intro _ _ _
          rfl

/-- A one-line metadata file for the rebuild witness. -/
def fsW : FileSys ℚ := ⟨some [some wDoc], none, some []⟩

/-- Witness for the C9 theorem: a rebuild whose `save_index` fails
returns `False` and leaves the original line recoverable, and the same
file rebuilds successfully when nothing fails. -/
theorem rebuild_index_recoverable_witness :
    ((rebuild_index (fun x => x) embOne "2025-08-15" true false fsW).1 = false ∧
     ((rebuild_index (fun x => x) embOne "2025-08-15" true false fsW).2.metaFile
         = some [some wDoc] ∨
      (rebuild_index (fun x => x) embOne "2025-08-15" true false fsW).2.backupFile
         = some [some wDoc])) ∧
    (rebuild_index (fun x => x) embOne "2025-08-15" false false fsW).1 = true :=
  ⟨⟨by decide,
    (rebuild_index_recoverable (fun x => x) embOne "2025-08-15" true false fsW
      [some wDoc] rfl).1 (by decide)⟩,
   (rebuild_index_recoverable (fun x => x) embOne "2025-08-15" false false fsW
      [some wDoc] rfl).2 (by decide) rfl rfl⟩

/-! ## C8: answer-path totality -/

theorem headSeg_refl : ∀ l : List Char, headSeg l l = true := by
  intro l
  induction l with
  | nil => rfl
  | cons c cs ih =>
    rw [headSeg]
    simp [ih]

theorem occurs_append : ∀ pre seg : List Char, occurs seg (pre ++ seg) = true := by
  intro pre
  induction pre with
  | nil =>
    intro seg
    cases seg with
    | nil => rfl
    | cons c cs =>
      rw [List.nil_append, occurs]
      simp [headSeg_refl]
  | cons c pre' ih =>
    intro seg
    rw [List.cons_append, occurs]
    simp [ih seg]

/-- C8: the answer path is total.  `build_answer` returns the assembled
string on LLM success and, whenever the code inside its `try` raises
with message `e` (in particular a GPT-call failure), it returns the fixed
fallback message, which contains the error text truncated to 100
characters; nothing is re-raised to the caller.  The enhanced chain's
GPT step (enhanced_rag_chain.py lines 139-153) likewise converts an LLM
failure into a fixed apology string rather than raising. -/
theorem build_answer_total {K : Type} [LinearOrderedField K]
    (sqrtK : K → K) (embedQ : String → Option (List K)) (st : Store K)
    (nowDays : K) (query : String) (um : UserMeta) (e : String) :
    build_answer sqrtK embedQ st (Except.error e) nowDays query um
        = fallbackMsg e ∧
    containsS (build_answer sqrtK embedQ st (Except.error e) nowDays query um)
        (takeS e 100) = true ∧
    enhancedLLMAnswer (Except.error e)
        = "죄송합니다. 일시적으로 답변을 생성할 수 없습니다." := by
  refine ⟨rfl, ?_, rfl⟩
  show containsS (fallbackMsg e) (takeS e 100) = true
  rw [fallbackMsg, containsS]
  exact occurs_append _ _
